import Mathlib

/-!
Verification of `pest`'s locatable pair iterators (`src/pest/src/iterators/locate_pairs.rs`).

The source text is modelled as a list of Unicode scalar values (`List Char`);
offsets count scalar values, which coincides with byte offsets on the
single-byte inputs considered here.  Rust's `Rc`-shared queue is modelled as a
plain immutable list carried in every view.  Code that can panic
(`unreachable!()`, out-of-bounds indexing) is modelled with `Except Unit`,
where `.error ()` marks the panic.
-/

namespace Pest

/-- Source text: a sequence of Unicode scalar values. -/
abbrev Str := List Char

/-- Token of the flat queue encoding a parse tree.  `Start` opens a node and
stores the index of its matching `End` token (`end_token_index`); `End` closes
it and stores the index of its matching `Start` (`start_token_index`).  Every
token carries its byte offset `input_pos` into the source.  The rule tag sits
on the `Start` token (spec §3: `Start{rule, matching_end_index}`). -/
inductive QueueableToken (R : Type) where
  | Start (end_token_index : Nat) (input_pos : Nat) (rule : R)
  | End (start_token_index : Nat) (input_pos : Nat)
deriving DecidableEq

namespace QueueableToken

/-- Byte offset carried by a token. -/
def pos {R : Type} : QueueableToken R → Nat
  | .Start _ p _ => p
  | .End _ p => p

end QueueableToken

/-- Offsets of the starts of line 2, 3, … — the offset immediately after each
line-feed character (offset 0 implicitly starts line 1). -/
def lineStarts : Str → Nat → List Nat
  | [], _ => []
  | c :: rest, i =>
    if c = '\n' then (i + 1) :: lineStarts rest (i + 1)
    else lineStarts rest (i + 1)

namespace LineIndex

/-- Modelled from the spec: `LineIndex::new` (line_index.rs is not under src/).
"sorted sequence of byte offsets marking line starts (offset 0 implicitly
starts line 1); built once by scanning the text for line-terminator code
points", with the line feed as the documented terminator set. -/
def new (input : Str) : List Nat := lineStarts input 0

/-- Modelled from the spec: `LineIndex::locate` — "(line, col), both 1-based:
line = count of line-starts ≤ offset; col = count of Unicode scalar values
from that line-start to offset, plus 1". -/
def locate (li : List Nat) (offset : Nat) : Nat × Nat :=
  let starts := (0 :: li).filter (fun s => decide (s ≤ offset))
  (starts.length, offset - starts.foldl max 0 + 1)

end LineIndex

/-- Modelled from the spec: the `Pair` facade (pair.rs is not under src/):
"view = (queue, text, optional line index, start index i)"; a cheap handle. -/
structure Pair (R : Type) where
  queue : List (QueueableToken R)
  input : Str
  line_index : Option (List Nat)
  start : Nat
deriving DecidableEq

/-- Modelled from the spec: `pair::new` stores its four arguments in the view. -/
def pairNew {R : Type} (queue : List (QueueableToken R)) (input : Str)
    (li : Option (List Nat)) (start : Nat) : Pair R :=
  ⟨queue, input, li, start⟩

namespace Pair

/-- Modelled from the spec: `Pair::as_str` — "matched substring (zero-copy
slice of text bounded by [start-offset, end-offset))". -/
def as_str {R : Type} (pr : Pair R) : Str :=
  match pr.queue[pr.start]? with
  | some (.Start j p _) =>
    match pr.queue[j]? with
    | some t => (pr.input.take t.pos).drop p
    | none => []
  | _ => []

/-- Modelled from the spec: `Pair::line_col()` = `LineIndex.locate(start-offset)`
when a line index is attached. -/
def line_col {R : Type} (pr : Pair R) : Nat × Nat :=
  match pr.line_index, pr.queue[pr.start]? with
  | some li, some t => LineIndex.locate li t.pos
  | _, _ => (0, 0)

end Pair

/-- The `LocatablePairs` view from locate_pairs.rs.  The Rust field `end` is
called `stop` here (`end` is a Lean keyword). -/
structure LocatablePairs (R : Type) where
  queue : List (QueueableToken R)
  input : Str
  start : Nat
  stop : Nat
  line_index : List Nat
deriving DecidableEq

/-- Constructor `new` of locate_pairs.rs: eagerly builds the line index from
the input and stores the range. -/
def locatablePairsNew {R : Type} (queue : List (QueueableToken R)) (input : Str)
    (start stop : Nat) : LocatablePairs R :=
  { queue, input, line_index := LineIndex.new input, start, stop }

namespace LocatablePairs

/-- `LocatablePairs::peek`: if `start < end`, the `Pair` at `start` carrying
the shared line index, without consuming; else `none`. -/
def peek {R : Type} (p : LocatablePairs R) : Option (Pair R) :=
  if p.start < p.stop then
    some (pairNew p.queue p.input (some p.line_index) p.start)
  else none

/-- `LocatablePairs::pair`: the `end_token_index` of the token at `start`;
`none` models the `unreachable!()` panic (token absent or not a `Start`). -/
def pair {R : Type} (p : LocatablePairs R) : Option Nat :=
  match p.queue[p.start]? with
  | some (.Start j _ _) => some j
  | _ => none

/-- `LocatablePairs::pair_from_end`: the `start_token_index` of the token at
`end - 1`; `none` models the `unreachable!()` panic. -/
def pair_from_end {R : Type} (p : LocatablePairs R) : Option Nat :=
  match p.queue[p.stop - 1]? with
  | some (.End s _) => some s
  | _ => none

/-- `Iterator::next` for `LocatablePairs`: `let pair = self.peek()?;
self.start = self.pair() + 1; Some(pair)`.  `.error ()` is the panic inside
`self.pair()`. -/
def next {R : Type} (p : LocatablePairs R) :
    Except Unit (Option (Pair R) × LocatablePairs R) :=
  match p.peek with
  | none => .ok (none, p)
  | some pr =>
    match p.pair with
    | some j => .ok (some pr, { p with start := j + 1 })
    | none => .error ()

/-- `DoubleEndedIterator::next_back` for `LocatablePairs`: if `end <= start`,
`None`; else `self.end = self.pair_from_end()` and the `Pair` at the new
`self.end` is returned. -/
def next_back {R : Type} (p : LocatablePairs R) :
    Except Unit (Option (Pair R) × LocatablePairs R) :=
  if p.stop ≤ p.start then .ok (none, p)
  else
    match p.pair_from_end with
    | some s =>
      .ok (some (pairNew p.queue p.input (some p.line_index) s),
           { p with stop := s })
    | none => .error ()

end LocatablePairs

/-- The `FlatPairs` view (flat_pairs.rs is not under src/); its
`line_index` field is the one assigned by `LocatablePairs::flatten`. -/
structure FlatPairs (R : Type) where
  queue : List (QueueableToken R)
  input : Str
  start : Nat
  stop : Nat
  line_index : Option (List Nat)
deriving DecidableEq

/-- Modelled from the spec: `flat_pairs::new` (flat_pairs.rs is not under
src/) stores the queue, input and range, with no line index attached yet. -/
def flatPairsNew {R : Type} (queue : List (QueueableToken R)) (input : Str)
    (start stop : Nat) : FlatPairs R :=
  ⟨queue, input, start, stop, none⟩

/-- `LocatablePairs::flatten`: builds a `FlatPairs` over the same range and
assigns the shared line index to it. -/
def LocatablePairs.flatten {R : Type} (p : LocatablePairs R) : FlatPairs R :=
  let pairs := flatPairsNew p.queue p.input p.start p.stop
  { pairs with line_index := some p.line_index }

/-- Whether the token at index `i` of the queue is a `Start`. -/
def isStartTok {R : Type} (q : List (QueueableToken R)) (i : Nat) : Bool :=
  match q[i]? with
  | some (.Start _ _ _) => true
  | _ => false

/-- Whether the token at index `i` of the queue is an `End`. -/
def isEndTok {R : Type} (q : List (QueueableToken R)) (i : Nat) : Bool :=
  match q[i]? with
  | some (.End _ _) => true
  | _ => false

/-- Modelled from the spec: exhausting the `FlatPairs` iterator (flat_pairs.rs
is not under src/) — "enumerating every token in [start,end) as a Pair in
document (preorder) order": a `Pair` is yielded at each successive
`Start`-token index of the range, in increasing index order.  One unit of fuel
is spent per queue index, so fuel `stop - start` exhausts the range. -/
def runFlat {R : Type} : Nat → FlatPairs R → List (Pair R)
  | 0, _ => []
  | fuel + 1, f =>
    if f.start < f.stop then
      if isStartTok f.queue f.start then
        pairNew f.queue f.input f.line_index f.start ::
          runFlat fuel { f with start := f.start + 1 }
      else runFlat fuel { f with start := f.start + 1 }
    else []

/-- Repeated `next()` until the first `None` (or panic), collecting the yielded
pairs; fuel bounds the number of calls. -/
def runForward {R : Type} : Nat → LocatablePairs R → List (Pair R)
  | 0, _ => []
  | fuel + 1, p =>
    match p.next with
    | .ok (some pr, p') => pr :: runForward fuel p'
    | _ => []

/-- Repeated `next_back()` until the first `None` (or panic), collecting the
yielded pairs; fuel bounds the number of calls. -/
def runBackward {R : Type} : Nat → LocatablePairs R → List (Pair R)
  | 0, _ => []
  | fuel + 1, p =>
    match p.next_back with
    | .ok (some pr, p') => pr :: runBackward fuel p'
    | _ => []

/-- The bracket-matching invariant of spec §3, relativised to a range:
`Spans q i k` says the tokens of `[i, k)` form a well-nested sequence of
complete sibling pairs — each `Start` points to its matching `End` and back,
and the range lies on pair boundaries. -/
inductive Spans {R : Type} (q : List (QueueableToken R)) : Nat → Nat → Prop where
  | nil (i : Nat) : Spans q i i
  | cons {i j k p p' : Nat} {r : R}
      (hs : q[i]? = some (.Start j p r))
      (he : q[j]? = some (.End i p'))
      (hin : Spans q (i + 1) j)
      (hrest : Spans q (j + 1) k) :
      Spans q i k

/-- Demo rule set for the concrete scenario of the tests. -/
inductive DemoRule where
  | a | b | c | d
deriving DecidableEq

/-- The source `"abc\nefgh"` of the tests in locate_pairs.rs. -/
def demoInput : Str := "abc\nefgh".data

/-- Modelled from the spec: the queue produced by parsing `"abc\nefgh"` in the
tests of locate_pairs.rs (the parser is not under src/) — node `a` spans
`"abc"` and contains the nested node `b` spanning the second character, then
two further top-level nodes span `"e"` and `"fgh"`. -/
def demoQueue : List (QueueableToken DemoRule) :=
  [.Start 3 0 .a, .Start 2 1 .b, .End 1 2, .End 0 3,
   .Start 5 4 .c, .End 4 5, .Start 7 5 .d, .End 6 8]

/-- The locatable view over the whole demo queue. -/
def demoView : LocatablePairs DemoRule :=
  locatablePairsNew demoQueue demoInput 0 8

/-- Direction of one iterator call: forward (`next`) or backward (`next_back`). -/
inductive Dir where
  | fwd | bwd
deriving DecidableEq

/-- One iterator call in the given direction; on a panic (`.error`) or an
exhausted return the state is kept as the source leaves it. -/
def applyDir {R : Type} (p : LocatablePairs R) : Dir → LocatablePairs R
  | .fwd =>
    match p.next with
    | .ok (_, p') => p'
    | .error _ => p
  | .bwd =>
    match p.next_back with
    | .ok (_, p') => p'
    | .error _ => p

/-- Any finite sequence of `next` / `next_back` calls, applied in order. -/
def applySeq {R : Type} (p : LocatablePairs R) (ds : List Dir) : LocatablePairs R :=
  ds.foldl applyDir p

/-- Number of `Start` tokens whose index lies in `[s, e)`. -/
def countStarts {R : Type} (q : List (QueueableToken R)) (s e : Nat) : Nat :=
  ((List.range' s (e - s)).filter (fun i => isStartTok q i)).length

namespace Spans

theorem le {R : Type} {q : List (QueueableToken R)} {i k : Nat}
    (h : Spans q i k) : i ≤ k := by
  induction h with
  | nil i => exact Nat.le_refl i
  | cons hs he hin hrest ih1 ih2 => omega

theorem first {R : Type} {q : List (QueueableToken R)} {i k : Nat}
    (h : Spans q i k) (hlt : i < k) :
    ∃ j pos pos' r, q[i]? = some (.Start j pos r) ∧
      q[j]? = some (.End i pos') ∧
      Spans q (i + 1) j ∧ Spans q (j + 1) k ∧ i < j ∧ j < k := by
  cases h with
  | nil => omega
  | cons hs he hin hrest =>
    exact ⟨_, _, _, _, hs, he, hin, hrest,
      by have := hin.le; omega, by have := hrest.le; omega⟩

theorem last {R : Type} {q : List (QueueableToken R)} {i k : Nat}
    (h : Spans q i k) :
    i < k → ∃ s pos pos' r, q[k - 1]? = some (.End s pos) ∧
      q[s]? = some (.Start (k - 1) pos' r) ∧
      Spans q i s ∧ i ≤ s ∧ s < k := by
  induction h with
  | nil i => omega
  | @cons i j k pos pos' r hs he hin hrest ih1 ih2 =>
    intro _
    rcases Nat.lt_or_ge (j + 1) k with hjk | hjk
    · obtain ⟨s, q1, q2, r', hEnd, hStart, hsp, hle, hsk⟩ := ih2 hjk
      exact ⟨s, q1, q2, r', hEnd, hStart, .cons hs he hin hsp,
        by have := hin.le; omega, hsk⟩
    · have hk : j + 1 = k := by have := hrest.le; omega
      have hk1 : k - 1 = j := by omega
      refine ⟨i, pos', pos, r, ?_, ?_, .nil i, Nat.le_refl i,
        by have := hin.le; omega⟩
      · rw [hk1]; exact he
      · rw [hk1]; exact hs

end Spans

theorem runForward_stop {R : Type} {q : List (QueueableToken R)} {inp : Str}
    {li : List Nat} {start stop fuel : Nat} (h : stop ≤ start) :
    runForward fuel ⟨q, inp, start, stop, li⟩ = [] := by
  cases fuel with
  | zero => rfl
  | succ f =>
    simp only [runForward, LocatablePairs.next, LocatablePairs.peek]
    rw [if_neg (by omega)]

theorem runForward_step {R : Type} {q : List (QueueableToken R)} {inp : Str}
    {li : List Nat} {start stop fuel j pos : Nat} {r : R}
    (hs : q[start]? = some (.Start j pos r)) (hlt : start < stop) :
    runForward (fuel + 1) ⟨q, inp, start, stop, li⟩ =
      pairNew q inp (some li) start :: runForward fuel ⟨q, inp, j + 1, stop, li⟩ := by
  simp only [runForward, LocatablePairs.next, LocatablePairs.peek,
    LocatablePairs.pair]
  rw [if_pos hlt]
  simp [hs]

theorem runBackward_stop {R : Type} {q : List (QueueableToken R)} {inp : Str}
    {li : List Nat} {start stop fuel : Nat} (h : stop ≤ start) :
    runBackward fuel ⟨q, inp, start, stop, li⟩ = [] := by
  cases fuel with
  | zero => rfl
  | succ f =>
    simp only [runBackward, LocatablePairs.next_back]
    rw [if_pos (by omega)]

theorem runBackward_step {R : Type} {q : List (QueueableToken R)} {inp : Str}
    {li : List Nat} {start stop fuel s pos : Nat}
    (hEnd : q[stop - 1]? = some (.End s pos)) (hlt : start < stop) :
    runBackward (fuel + 1) ⟨q, inp, start, stop, li⟩ =
      pairNew q inp (some li) s :: runBackward fuel ⟨q, inp, start, s, li⟩ := by
  simp only [runBackward, LocatablePairs.next_back, LocatablePairs.pair_from_end]
  rw [if_neg (by omega)]
  simp [hEnd]

theorem peek_exhausted {R : Type} {p : LocatablePairs R} (h : p.stop ≤ p.start) :
    p.peek = none := by
  simp only [LocatablePairs.peek]
  rw [if_neg (by omega)]

theorem peek_some {R : Type} {p : LocatablePairs R} (h : p.start < p.stop) :
    p.peek = some (pairNew p.queue p.input (some p.line_index) p.start) := by
  simp only [LocatablePairs.peek]
  rw [if_pos h]

theorem next_exhausted {R : Type} {p : LocatablePairs R} (h : p.stop ≤ p.start) :
    p.next = .ok (none, p) := by
  simp only [LocatablePairs.next, peek_exhausted h]

theorem next_back_exhausted {R : Type} {p : LocatablePairs R} (h : p.stop ≤ p.start) :
    p.next_back = .ok (none, p) := by
  simp only [LocatablePairs.next_back]
  rw [if_pos h]

theorem next_success {R : Type} {p : LocatablePairs R} {j pos : Nat} {r : R}
    (hs : p.queue[p.start]? = some (.Start j pos r)) (hlt : p.start < p.stop) :
    p.next = .ok (some (pairNew p.queue p.input (some p.line_index) p.start),
      { p with start := j + 1 }) := by
  simp only [LocatablePairs.next, LocatablePairs.pair, peek_some hlt, hs]

theorem next_back_success {R : Type} {p : LocatablePairs R} {s pos : Nat}
    (hE : p.queue[p.stop - 1]? = some (.End s pos)) (hlt : p.start < p.stop) :
    p.next_back = .ok (some (pairNew p.queue p.input (some p.line_index) s),
      { p with stop := s }) := by
  simp only [LocatablePairs.next_back, LocatablePairs.pair_from_end, hE]
  rw [if_neg (by omega)]

theorem runForward_snoc {R : Type} {q : List (QueueableToken R)} {inp : Str}
    {li : List Nat} {start s stop pos : Nat} {r : R}
    (hsp : Spans q start s) :
    ∀ {fuel : Nat}, s < stop → q[s]? = some (.Start (stop - 1) pos r) →
      s - start ≤ fuel →
      runForward (fuel + 1) ⟨q, inp, start, stop, li⟩ =
        runForward fuel ⟨q, inp, start, s, li⟩ ++ [pairNew q inp (some li) s] := by
  induction hsp with
  | nil i =>
    intro fuel hlt hS _
    rw [runForward_step hS hlt]
    have h1 : stop - 1 + 1 = stop := by omega
    rw [h1, runForward_stop (Nat.le_refl stop), runForward_stop (Nat.le_refl i)]
    rfl
  | @cons i j s' pos1 pos1' r1 hs he hin hrest ih1 ih2 =>
    intro fuel hlt hS hf
    have hij : i < j := by have := hin.le; omega
    have hjs : j + 1 ≤ s' := hrest.le
    obtain ⟨f, rfl⟩ : ∃ f, fuel = f + 1 := ⟨fuel - 1, by omega⟩
    rw [runForward_step hs (by omega), runForward_step hs (by omega)]
    rw [ih2 hlt hS (by omega)]
    rfl

theorem runBackward_eq_reverse {R : Type} {q : List (QueueableToken R)}
    {inp : Str} {li : List Nat} :
    ∀ {fuel start stop : Nat}, Spans q start stop → stop - start ≤ fuel →
      runBackward fuel ⟨q, inp, start, stop, li⟩ =
        (runForward fuel ⟨q, inp, start, stop, li⟩).reverse := by
  intro fuel
  induction fuel with
  | zero => intro start stop _ _; rfl
  | succ f ih =>
    intro start stop hsp hf
    by_cases hlt : start < stop
    · obtain ⟨s, pos, pos', r, hEnd, hS, hsp', hle, hsk⟩ := hsp.last hlt
      rw [runBackward_step hEnd hlt, runForward_snoc hsp' hsk hS (by omega),
        List.reverse_append]
      simp [ih hsp' (by omega)]
    · rw [runBackward_stop (by omega), runForward_stop (by omega)]
      rfl

theorem runForward_mem {R : Type} {q : List (QueueableToken R)} {inp : Str}
    {li : List Nat} :
    ∀ {fuel start stop : Nat}, Spans q start stop →
      ∀ pr ∈ runForward fuel ⟨q, inp, start, stop, li⟩,
        start ≤ pr.start ∧ pr.start < stop ∧ isStartTok q pr.start = true ∧
          pr.queue = q ∧ pr.input = inp ∧ pr.line_index = some li := by
  intro fuel
  induction fuel with
  | zero => intro start stop _ pr hpr; simp [runForward] at hpr
  | succ f ih =>
    intro start stop hsp pr hpr
    by_cases hlt : start < stop
    · obtain ⟨j, pos, pos', r, hs, he, hin, hrest, hij, hjk⟩ := hsp.first hlt
      rw [runForward_step hs hlt] at hpr
      rcases List.mem_cons.mp hpr with h | h
      · subst h
        exact ⟨Nat.le_refl _, hlt, by simp [isStartTok, pairNew, hs], rfl, rfl, rfl⟩
      · obtain ⟨h1, h2, h3, h4, h5, h6⟩ := ih hrest pr h
        exact ⟨by omega, h2, h3, h4, h5, h6⟩
    · rw [runForward_stop (by omega)] at hpr
      simp at hpr

theorem countStarts_split {R : Type} {q : List (QueueableToken R)} {a b c : Nat}
    (h1 : a ≤ b) (h2 : b ≤ c) :
    countStarts q a c = countStarts q a b + countStarts q b c := by
  unfold countStarts
  have h3 : a + 1 * (b - a) = b := by omega
  have h5 := List.range'_append a (b - a) (c - b) 1
  rw [h3, show c - b + (b - a) = c - a by omega] at h5
  rw [← h5, List.filter_append, List.length_append]

theorem countStarts_single_start {R : Type} {q : List (QueueableToken R)}
    {i j pos : Nat} {r : R} (hs : q[i]? = some (.Start j pos r)) :
    countStarts q i (i + 1) = 1 := by
  unfold countStarts
  have h1 : i + 1 - i = 1 := by omega
  rw [h1]
  simp [List.range', isStartTok, hs]

theorem countStarts_single_end {R : Type} {q : List (QueueableToken R)}
    {j s pos : Nat} (he : q[j]? = some (.End s pos)) :
    countStarts q j (j + 1) = 0 := by
  unfold countStarts
  have h1 : j + 1 - j = 1 := by omega
  rw [h1]
  simp [List.range', isStartTok, he]

theorem countStarts_pos {R : Type} {q : List (QueueableToken R)}
    {i j pos e : Nat} {r : R} (hs : q[i]? = some (.Start j pos r)) (h : i < e) :
    1 ≤ countStarts q i e := by
  rw [countStarts_split (show i ≤ i + 1 by omega) (show i + 1 ≤ e by omega),
    countStarts_single_start hs]
  omega

theorem countStarts_decomp {R : Type} {q : List (QueueableToken R)}
    {i j k pos pos' : Nat} {r : R}
    (hs : q[i]? = some (.Start j pos r)) (he : q[j]? = some (.End i pos'))
    (hij : i < j) (hjk : j + 1 ≤ k) :
    countStarts q i k = 1 + countStarts q (i + 1) j + countStarts q (j + 1) k := by
  rw [countStarts_split (show i ≤ i + 1 by omega) (show i + 1 ≤ k by omega),
    countStarts_split (show i + 1 ≤ j by omega) (show j ≤ k by omega),
    countStarts_split (show j ≤ j + 1 by omega) (show j + 1 ≤ k by omega),
    countStarts_single_start hs, countStarts_single_end he]
  omega

theorem runForward_len_le {R : Type} {q : List (QueueableToken R)} {inp : Str}
    {li : List Nat} {start stop : Nat} (hsp : Spans q start stop) :
    ∀ {fuel : Nat}, stop - start ≤ fuel →
      (runForward fuel ⟨q, inp, start, stop, li⟩).length ≤
        countStarts q start stop := by
  induction hsp with
  | nil i =>
    intro fuel _
    rw [runForward_stop (Nat.le_refl i)]
    simp
  | @cons i j k pos pos' r hs he hin hrest ih1 ih2 =>
    intro fuel hf
    have hij : i < j := by have := hin.le; omega
    have hjk : j + 1 ≤ k := hrest.le
    obtain ⟨f, rfl⟩ : ∃ f, fuel = f + 1 := ⟨fuel - 1, by omega⟩
    rw [runForward_step hs (by omega), countStarts_decomp hs he hij hjk]
    have hrec : (runForward f (⟨q, inp, j + 1, k, li⟩ : LocatablePairs R)).length ≤
        countStarts q (j + 1) k := ih2 (by omega)
    simp only [List.length_cons]
    omega

theorem runForward_len_lt {R : Type} {q : List (QueueableToken R)} {inp : Str}
    {li : List Nat} {start stop : Nat} (hsp : Spans q start stop) :
    ∀ {fuel : Nat}, stop - start ≤ fuel →
      (∃ pr ∈ runForward fuel ⟨q, inp, start, stop, li⟩, ∃ j pos r,
        q[pr.start]? = some (.Start j pos r) ∧ pr.start + 1 < j) →
      (runForward fuel ⟨q, inp, start, stop, li⟩).length <
        countStarts q start stop := by
  induction hsp with
  | nil i =>
    intro fuel _ H
    rw [runForward_stop (Nat.le_refl i)] at H
    simp at H
  | @cons i j k pos pos' r hs he hin hrest ih1 ih2 =>
    intro fuel hf H
    have hij : i < j := by have := hin.le; omega
    have hjk : j + 1 ≤ k := hrest.le
    obtain ⟨f, rfl⟩ : ∃ f, fuel = f + 1 := ⟨fuel - 1, by omega⟩
    rw [runForward_step hs (by omega)] at H ⊢
    rw [countStarts_decomp hs he hij hjk]
    obtain ⟨pr, hpr, j', pos2, r2, hpr2, hlt2⟩ := H
    have hlen : (runForward f (⟨q, inp, j + 1, k, li⟩ : LocatablePairs R)).length ≤
        countStarts q (j + 1) k := runForward_len_le hrest (by omega)
    rcases List.mem_cons.mp hpr with hh | hh
    · subst hh
      simp only [pairNew] at hpr2 hlt2
      rw [hs] at hpr2
      simp only [Option.some.injEq, QueueableToken.Start.injEq] at hpr2
      have hcin : 1 ≤ countStarts q (i + 1) j := by
        obtain ⟨j2, p2, p2', r3, hs2, _, _, _, h2a, h2b⟩ :=
          hin.first (show i + 1 < j by omega)
        exact countStarts_pos hs2 (by omega)
      simp only [List.length_cons]
      omega
    · have := ih2 (by omega) ⟨pr, hh, j', pos2, r2, hpr2, hlt2⟩
      simp only [List.length_cons]
      omega

theorem applyDir_pres {R : Type} {p : LocatablePairs R}
    (hsp : Spans p.queue p.start p.stop) (d : Dir) :
    Spans (applyDir p d).queue (applyDir p d).start (applyDir p d).stop ∧
    (applyDir p d).queue = p.queue ∧ (applyDir p d).input = p.input ∧
    (applyDir p d).line_index = p.line_index := by
  cases d with
  | fwd =>
    by_cases hlt : p.start < p.stop
    · obtain ⟨j, pos, pos', r, hs, he, hin, hrest, hij, hjk⟩ := hsp.first hlt
      have e : applyDir p .fwd = { p with start := j + 1 } := by
        simp only [applyDir, next_success hs hlt]
      rw [e]
      exact ⟨hrest, rfl, rfl, rfl⟩
    · have hne : p.next = .ok (none, p) := next_exhausted (by omega)
      have e : applyDir p .fwd = p := by
        simp only [applyDir, hne]
      rw [e]
      exact ⟨hsp, rfl, rfl, rfl⟩
  | bwd =>
    by_cases hlt : p.start < p.stop
    · obtain ⟨s, pos, pos', r, hEnd, hS, hsp', hle, hsk⟩ := hsp.last hlt
      have e : applyDir p .bwd = { p with stop := s } := by
        simp only [applyDir, next_back_success hEnd hlt]
      rw [e]
      exact ⟨hsp', rfl, rfl, rfl⟩
    · have hne : p.next_back = .ok (none, p) := next_back_exhausted (by omega)
      have e : applyDir p .bwd = p := by
        simp only [applyDir, hne]
      rw [e]
      exact ⟨hsp, rfl, rfl, rfl⟩

theorem applySeq_pres {R : Type} {p : LocatablePairs R} (ds : List Dir)
    (hsp : Spans p.queue p.start p.stop) :
    Spans (applySeq p ds).queue (applySeq p ds).start (applySeq p ds).stop ∧
    (applySeq p ds).queue = p.queue ∧ (applySeq p ds).input = p.input ∧
    (applySeq p ds).line_index = p.line_index := by
  induction ds generalizing p with
  | nil => exact ⟨hsp, rfl, rfl, rfl⟩
  | cons d ds ih =>
    obtain ⟨h1, h2, h3, h4⟩ := applyDir_pres hsp d
    obtain ⟨g1, g2, g3, g4⟩ := ih h1
    have e : applySeq p (d :: ds) = applySeq (applyDir p d) ds := rfl
    rw [e]
    exact ⟨g1, g2.trans h2, g3.trans h3, g4.trans h4⟩

theorem runFlat_fields {R : Type} :
    ∀ {fuel : Nat} {f : FlatPairs R}, ∀ pr ∈ runFlat fuel f,
      pr.line_index = f.line_index ∧ pr.queue = f.queue ∧ pr.input = f.input := by
  intro fuel
  induction fuel with
  | zero => intro f pr h; simp [runFlat] at h
  | succ n ih =>
    intro f pr h
    simp only [runFlat] at h
    by_cases h1 : f.start < f.stop
    · rw [if_pos h1] at h
      by_cases h2 : isStartTok f.queue f.start = true
      · rw [if_pos h2] at h
        rcases List.mem_cons.mp h with h | h
        · subst h; exact ⟨rfl, rfl, rfl⟩
        · exact ih (f := { f with start := f.start + 1 }) pr h
      · rw [if_neg h2] at h
        exact ih (f := { f with start := f.start + 1 }) pr h
    · rw [if_neg h1] at h
      simp at h

theorem runFlat_eq {R : Type} {q : List (QueueableToken R)} {inp : Str}
    {lio : Option (List Nat)} :
    ∀ {fuel start stop : Nat}, stop - start ≤ fuel →
      runFlat fuel (⟨q, inp, start, stop, lio⟩ : FlatPairs R) =
        ((List.range' start (stop - start)).filter
          (fun i => isStartTok q i)).map (pairNew q inp lio) := by
  intro fuel
  induction fuel with
  | zero =>
    intro start stop hf
    rw [show stop - start = 0 by omega]
    rfl
  | succ n ih =>
    intro start stop hf
    by_cases hlt : start < stop
    · rw [show stop - start = (stop - (start + 1)) + 1 by omega, List.range'_succ]
      simp only [runFlat]
      rw [if_pos hlt]
      by_cases h2 : isStartTok q start = true
      · rw [if_pos h2]
        simp [List.filter_cons, h2, ih (show stop - (start + 1) ≤ n by omega)]
      · rw [if_neg h2]
        simp only [List.filter_cons]
        rw [if_neg h2]
        exact ih (by omega)
    · rw [show stop - start = 0 by omega]
      simp only [runFlat]
      rw [if_neg hlt]
      rfl

/-- The well-nestedness derivation for the demo queue. -/
theorem demoSpans : Spans demoQueue 0 8 :=
  .cons rfl rfl
    (.cons rfl rfl (.nil 2) (.nil 3))
    (.cons rfl rfl (.nil 5)
      (.cons rfl rfl (.nil 7) (.nil 8)))

/-- Claim C1: for every LocatablePairs view whose range is well formed
(`Spans`), exhausting the view with repeated next() and exhausting an
identical copy with repeated next_back() produce sequences of Pairs that are
exact reverses of each other (fuel at least the token count of the range
exhausts either direction). -/
theorem claim_C1 {R : Type} (p : LocatablePairs R) (fuel : Nat)
    (hsp : Spans p.queue p.start p.stop) (hf : p.stop - p.start ≤ fuel) :
    runBackward fuel p = (runForward fuel p).reverse := by
  obtain ⟨q, inp, start, stop, li⟩ := p
  exact runBackward_eq_reverse hsp hf

theorem claim_C1_witness :
    runBackward 8 demoView = (runForward 8 demoView).reverse :=
  claim_C1 demoView 8 demoSpans (by decide)

/-- Claim C2: over a well-formed range, next() returns exactly what peek()
returns in the same state; on yielding a Pair it sets start to the
matching_end_index of the Start token at the old start, plus 1; the remaining
range is again a well-formed sibling forest (so consecutively yielded pairs
are siblings), and every pair yielded afterwards has index at least
matching_end_index + 1: the whole subtree just yielded is skipped, never
descended into. -/
theorem claim_C2 {R : Type} (p : LocatablePairs R)
    (hsp : Spans p.queue p.start p.stop) :
    (∃ p', p.next = .ok (p.peek, p')) ∧
    (p.start < p.stop → ∃ j pos r,
      p.queue[p.start]? = some (.Start j pos r) ∧
      p.next = .ok (p.peek, { p with start := j + 1 }) ∧
      Spans p.queue (j + 1) p.stop ∧ p.start < j ∧
      ∀ fuel, ∀ pr ∈ runForward fuel { p with start := j + 1 },
        j + 1 ≤ pr.start ∧ pr.start < p.stop) := by
  constructor
  · by_cases hlt : p.start < p.stop
    · obtain ⟨j, pos, pos', r, hs, he, hin, hrest, hij, hjk⟩ := hsp.first hlt
      exact ⟨_, by rw [next_success hs hlt, peek_some hlt]⟩
    · exact ⟨p, by rw [next_exhausted (by omega), peek_exhausted (by omega)]⟩
  · intro hlt
    obtain ⟨j, pos, pos', r, hs, he, hin, hrest, hij, hjk⟩ := hsp.first hlt
    refine ⟨j, pos, r, hs, ?_, hrest, hij, ?_⟩
    · rw [next_success hs hlt, peek_some hlt]
    · intro fuel pr hpr
      obtain ⟨q, inp, st, sp, li⟩ := p
      obtain ⟨h1, h2, h3, h4, h5, h6⟩ := runForward_mem hrest pr hpr
      exact ⟨h1, h2⟩

theorem claim_C2_witness :
    ∃ j pos r, demoView.queue[demoView.start]? = some (.Start j pos r) ∧
      demoView.next = .ok (demoView.peek, { demoView with start := j + 1 }) ∧
      Spans demoView.queue (j + 1) demoView.stop ∧ demoView.start < j ∧
      ∀ fuel, ∀ pr ∈ runForward fuel { demoView with start := j + 1 },
        j + 1 ≤ pr.start ∧ pr.start < demoView.stop :=
  (claim_C2 demoView demoSpans).2 (by decide)

/-- Claim C3: next_back() returns none and leaves the state unchanged when
end ≤ start; otherwise the End token at end - 1 gives s =
matching_start_index, the yielded Pair is the one whose start index is s, and
the new end is s. -/
theorem claim_C3 {R : Type} (p : LocatablePairs R)
    (hsp : Spans p.queue p.start p.stop) :
    (p.stop ≤ p.start → p.next_back = .ok (none, p)) ∧
    (p.start < p.stop → ∃ s pos,
      p.queue[p.stop - 1]? = some (.End s pos) ∧
      p.next_back = .ok (some (pairNew p.queue p.input (some p.line_index) s),
        { p with stop := s })) := by
  constructor
  · intro h
    exact next_back_exhausted h
  · intro hlt
    obtain ⟨s, pos, pos', r, hEnd, hS, hsp', hle, hsk⟩ := hsp.last hlt
    exact ⟨s, pos, hEnd, next_back_success hEnd hlt⟩

theorem claim_C3_witness :
    ∃ s pos, demoView.queue[demoView.stop - 1]? = some (.End s pos) ∧
      demoView.next_back = .ok (some (pairNew demoView.queue demoView.input
        (some demoView.line_index) s), { demoView with stop := s }) :=
  (claim_C3 demoView demoSpans).2 (by decide)

/-- Claim C4: construction eagerly builds one line index from the input; that
same index is attached to every Pair produced by peek, next and next_back;
the view's index field is never changed by next or next_back (never rebuilt
during iteration); and flatten propagates the same index unchanged into the
FlatPairs, whence into every pair the flattened iterator yields. -/
theorem claim_C4 {R : Type} (queue : List (QueueableToken R)) (input : Str)
    (s e : Nat) (p : LocatablePairs R) :
    (locatablePairsNew queue input s e).line_index = LineIndex.new input ∧
    (∀ pr, p.peek = some pr → pr.line_index = some p.line_index) ∧
    (∀ o p', p.next = .ok (o, p') → p'.line_index = p.line_index ∧
      ∀ pr, o = some pr → pr.line_index = some p.line_index) ∧
    (∀ o p', p.next_back = .ok (o, p') → p'.line_index = p.line_index ∧
      ∀ pr, o = some pr → pr.line_index = some p.line_index) ∧
    p.flatten.line_index = some p.line_index ∧
    (∀ fuel, ∀ pr ∈ runFlat fuel p.flatten,
      pr.line_index = some p.line_index) := by
  have hpeek : ∀ pr, p.peek = some pr → pr.line_index = some p.line_index := by
    intro pr h
    by_cases hlt : p.start < p.stop
    · rw [peek_some hlt] at h
      cases h
      rfl
    · rw [peek_exhausted (by omega)] at h
      cases h
  refine ⟨rfl, hpeek, ?_, ?_, rfl, ?_⟩
  · intro o p' h
    simp only [LocatablePairs.next] at h
    cases hp : p.peek with
    | none =>
      rw [hp] at h
      simp only [Except.ok.injEq, Prod.mk.injEq] at h
      obtain ⟨ho, hp'⟩ := h
      subst ho
      subst hp'
      exact ⟨rfl, fun pr hpr => by cases hpr⟩
    | some pr0 =>
      rw [hp] at h
      cases hq : p.pair with
      | none =>
        rw [hq] at h
        simp at h
      | some j =>
        rw [hq] at h
        simp only [Except.ok.injEq, Prod.mk.injEq] at h
        obtain ⟨ho, hp'⟩ := h
        subst ho
        subst hp'
        refine ⟨rfl, fun pr hpr => ?_⟩
        cases hpr
        exact hpeek pr0 hp
  · intro o p' h
    simp only [LocatablePairs.next_back] at h
    by_cases hle : p.stop ≤ p.start
    · rw [if_pos hle] at h
      simp only [Except.ok.injEq, Prod.mk.injEq] at h
      obtain ⟨ho, hp'⟩ := h
      subst ho
      subst hp'
      exact ⟨rfl, fun pr hpr => by cases hpr⟩
    · rw [if_neg hle] at h
      cases hq : p.pair_from_end with
      | none =>
        rw [hq] at h
        simp at h
      | some s =>
        rw [hq] at h
        simp only [Except.ok.injEq, Prod.mk.injEq] at h
        obtain ⟨ho, hp'⟩ := h
        subst ho
        subst hp'
        refine ⟨rfl, fun pr hpr => ?_⟩
        cases hpr
        rfl
  · intro fuel pr h
    exact (runFlat_fields pr h).1

theorem claim_C4_witness :
    (pairNew demoView.queue demoView.input (some demoView.line_index)
      demoView.start).line_index = some demoView.line_index :=
  (claim_C4 demoQueue demoInput 0 8 demoView).2.1 _ rfl

/-- Claim C5: flatten() yields exactly one Pair for every Start token whose
index falls in [start, stop), in increasing index (document preorder) order —
the list of yields is the index-ordered enumeration of the Start tokens of
the range; the direct-children sequence never yields more pairs than the
flattened one, and strictly fewer whenever some yielded child has descendants
(a Start whose matching End is beyond the next index); and the shared
location metadata is carried by every yielded Pair. -/
theorem claim_C5 {R : Type} (p : LocatablePairs R) (fuel : Nat)
    (hsp : Spans p.queue p.start p.stop) (hf : p.stop - p.start ≤ fuel) :
    runFlat fuel p.flatten =
      ((List.range' p.start (p.stop - p.start)).filter
        (fun i => isStartTok p.queue i)).map
        (pairNew p.queue p.input (some p.line_index)) ∧
    (runForward fuel p).length ≤ (runFlat fuel p.flatten).length ∧
    ((∃ pr ∈ runForward fuel p, ∃ j pos r,
        p.queue[pr.start]? = some (.Start j pos r) ∧ pr.start + 1 < j) →
      (runForward fuel p).length < (runFlat fuel p.flatten).length) ∧
    (∀ pr ∈ runFlat fuel p.flatten, pr.line_index = some p.line_index) := by
  obtain ⟨q, inp, st, sp, li⟩ := p
  have hflat : runFlat fuel (LocatablePairs.flatten ⟨q, inp, st, sp, li⟩) =
      ((List.range' st (sp - st)).filter (fun i => isStartTok q i)).map
        (pairNew q inp (some li)) := runFlat_eq hf
  refine ⟨hflat, ?_, ?_, ?_⟩
  · rw [hflat, List.length_map]
    exact runForward_len_le hsp hf
  · intro H
    rw [hflat, List.length_map]
    exact runForward_len_lt hsp hf H
  · intro pr h
    exact (runFlat_fields pr h).1

theorem claim_C5_witness :
    runFlat 8 demoView.flatten =
      ((List.range' 0 8).filter (fun i => isStartTok demoQueue i)).map
        (pairNew demoQueue demoInput (some (LineIndex.new demoInput))) ∧
    (runForward 8 demoView).length < (runFlat 8 demoView.flatten).length :=
  ⟨(claim_C5 demoView 8 demoSpans (by decide)).1,
   (claim_C5 demoView 8 demoSpans (by decide)).2.2.1
     ⟨pairNew demoQueue demoInput (some (LineIndex.new demoInput)) 0,
      by decide, 3, 0, .a, by decide, by decide⟩⟩

/-- Claim C6: on the source "abc\nefgh" parsed with node a spanning "abc" and
containing the nested node b that matches the second character (the parse of
rule a consumes the whole input), forward locatable iteration yields
"abc"@(1,1), "e"@(2,1), "fgh"@(2,2); flattening the same range additionally
yields "b"@(1,2) between "abc" and "e"; reverse iteration yields "fgh"@(2,2),
"e"@(2,1), "abc"@(1,1). -/
theorem claim_C6 :
    (runForward 8 demoView).map (fun pr => (pr.as_str, pr.line_col)) =
      [("abc".data, (1, 1)), ("e".data, (2, 1)), ("fgh".data, (2, 2))] ∧
    (runFlat 8 demoView.flatten).map (fun pr => (pr.as_str, pr.line_col)) =
      [("abc".data, (1, 1)), ("b".data, (1, 2)), ("e".data, (2, 1)),
       ("fgh".data, (2, 2))] ∧
    (runBackward 8 demoView).map (fun pr => (pr.as_str, pr.line_col)) =
      [("fgh".data, (2, 2)), ("e".data, (2, 1)), ("abc".data, (1, 1))] := by
  refine ⟨by decide, by decide, by decide⟩

/-- Claim C7: over a well-formed range the operations are total — the token
inspected at start is always a Start and the token at end - 1 always an End,
so the unreachable!() branches of pair() and pair_from_end() are never taken
and next / next_back never panic. -/
theorem claim_C7 {R : Type} (p : LocatablePairs R)
    (hsp : Spans p.queue p.start p.stop) :
    p.next ≠ .error () ∧ p.next_back ≠ .error () ∧
    (p.start < p.stop → isStartTok p.queue p.start = true ∧
      isEndTok p.queue (p.stop - 1) = true) := by
  by_cases hlt : p.start < p.stop
  · obtain ⟨j, pos, pos', r, hs, he, hin, hrest, hij, hjk⟩ := hsp.first hlt
    obtain ⟨s, pos2, pos2', r2, hEnd, hS, hsp', hle, hsk⟩ := hsp.last hlt
    refine ⟨?_, ?_,
      fun _ => ⟨by simp [isStartTok, hs], by simp [isEndTok, hEnd]⟩⟩
    · rw [next_success hs hlt]
      simp
    · rw [next_back_success hEnd hlt]
      simp
  · refine ⟨?_, ?_, fun h => absurd h hlt⟩
    · rw [next_exhausted (by omega)]
      simp
    · rw [next_back_exhausted (by omega)]
      simp

theorem claim_C7_witness :
    demoView.next ≠ .error () ∧ demoView.next_back ≠ .error () :=
  ⟨(claim_C7 demoView demoSpans).1, (claim_C7 demoView demoSpans).2.1⟩

/-- Claim C8: starting from a well-formed range, every sequence of next() and
next_back() calls preserves the invariant: the queue is unchanged, the range
is still a well-formed sibling forest, start ≤ end (the cursors may meet but
never cross), and whenever start < end the token at start is a Start and the
token at end - 1 is an End. -/
theorem claim_C8 {R : Type} (p : LocatablePairs R) (ds : List Dir)
    (hsp : Spans p.queue p.start p.stop) :
    (applySeq p ds).queue = p.queue ∧
    Spans (applySeq p ds).queue (applySeq p ds).start (applySeq p ds).stop ∧
    (applySeq p ds).start ≤ (applySeq p ds).stop ∧
    ((applySeq p ds).start < (applySeq p ds).stop →
      isStartTok (applySeq p ds).queue (applySeq p ds).start = true ∧
      isEndTok (applySeq p ds).queue ((applySeq p ds).stop - 1) = true) := by
  obtain ⟨h1, h2, h3, h4⟩ := applySeq_pres ds hsp
  refine ⟨h2, h1, h1.le, fun hlt => ?_⟩
  obtain ⟨j, pos, pos', r, hs, he, hin, hrest, hij, hjk⟩ := h1.first hlt
  obtain ⟨s, pos2, pos2', r2, hEnd, hS, hsp', hle, hsk⟩ := h1.last hlt
  exact ⟨by simp [isStartTok, hs], by simp [isEndTok, hEnd]⟩

theorem claim_C8_witness :
    (applySeq demoView [.fwd, .bwd, .fwd]).start ≤
      (applySeq demoView [.fwd, .bwd, .fwd]).stop :=
  (claim_C8 demoView [.fwd, .bwd, .fwd] demoSpans).2.2.1

/-- Claim C9: peek() returns the Pair at start when start < end and none
otherwise; peek borrows the view immutably, so it is embedded as a pure
function of the state — repeated peeks trivially coincide and cannot change
any later call — and next() returns exactly peek's result whenever it
returns at all. -/
theorem claim_C9 {R : Type} (p : LocatablePairs R) :
    (p.start < p.stop →
      p.peek = some (pairNew p.queue p.input (some p.line_index) p.start)) ∧
    (p.stop ≤ p.start → p.peek = none) ∧
    (∀ o p', p.next = .ok (o, p') → o = p.peek) := by
  refine ⟨fun h => peek_some h, fun h => peek_exhausted h, ?_⟩
  intro o p' h
  simp only [LocatablePairs.next] at h
  cases hp : p.peek with
  | none =>
    rw [hp] at h
    simp only [Except.ok.injEq, Prod.mk.injEq] at h
    exact h.1.symm
  | some pr0 =>
    rw [hp] at h
    cases hq : p.pair with
    | none =>
      rw [hq] at h
      simp at h
    | some j =>
      rw [hq] at h
      simp only [Except.ok.injEq, Prod.mk.injEq] at h
      exact h.1.symm

theorem claim_C9_witness :
    demoView.peek =
      some (pairNew demoView.queue demoView.input (some demoView.line_index)
        demoView.start) :=
  (claim_C9 demoView).1 (by decide)

/-- Claim C10: once start ≥ end, peek / next / next_back all return none with
the two cursors unchanged, every further sequence of calls leaves the state
fixed, and both exhaustion runs are empty: the iterator is fused at the
public interface. -/
theorem claim_C10 {R : Type} (p : LocatablePairs R) (h : p.stop ≤ p.start) :
    p.peek = none ∧ p.next = .ok (none, p) ∧ p.next_back = .ok (none, p) ∧
    (∀ ds : List Dir, applySeq p ds = p) ∧
    (∀ fuel, runForward fuel p = [] ∧ runBackward fuel p = []) := by
  refine ⟨peek_exhausted h, next_exhausted h, next_back_exhausted h, ?_, ?_⟩
  · intro ds
    induction ds with
    | nil => rfl
    | cons d ds ih =>
      have e : applyDir p d = p := by
        cases d with
        | fwd => simp only [applyDir, next_exhausted h]
        | bwd => simp only [applyDir, next_back_exhausted h]
      have e2 : applySeq p (d :: ds) = applySeq (applyDir p d) ds := rfl
      rw [e2, e, ih]
  · intro fuel
    obtain ⟨q, inp, st, sp, li⟩ := p
    exact ⟨runForward_stop h, runBackward_stop h⟩

theorem claim_C10_witness :
    (locatablePairsNew demoQueue demoInput 8 8).peek = none ∧
    (locatablePairsNew demoQueue demoInput 8 8).next =
      .ok (none, locatablePairsNew demoQueue demoInput 8 8) :=
  ⟨(claim_C10 (locatablePairsNew demoQueue demoInput 8 8) (by decide)).1,
   (claim_C10 (locatablePairsNew demoQueue demoInput 8 8) (by decide)).2.1⟩

end Pest
